import Mathlib

set_option maxHeartbeats 1000000

/- Shallow embedding of src/internal/modeling/addresstree.go (package modeling).

   An IPv6 address is identified with its sequence of 32 nybbles, most
   significant nybble first: the external symbol codec
   (addressing.GetNybblesFromIP / addressing.NybblesToIP, declared out of
   scope by the spec and specified only by its interface contract) is modelled
   as truncation and the identity on nybble sequences, which satisfies the
   round-trip contract of the spec by construction.

   Go maps from uint8 keys to node pointers are modelled as association lists
   with unique keys; the (unspecified) Go map iteration order is fixed to list
   order, and every theorem about an enumeration result is stated up to
   membership or length, never up to a particular order.

   A Go runtime panic (nil-pointer dereference, index out of range, integer
   division by zero) is modelled explicitly: by a dedicated result constructor
   for the range queries, and by Option for bulk insertion. -/

/-- An address value, identified with its full nybble sequence. -/
abbrev Addr := List Nat

/-- A well-formed 128-bit address: 32 nybbles, each a value in [0, 15]. -/
def IsAddr (a : Addr) : Prop := a.length = 32 ∧ ∀ x ∈ a, x < 16

instance (a : Addr) : Decidable (IsAddr a) := by
  unfold IsAddr; infer_instance

/-- AddressTreeNode: ChildrenCount (int64), Children (map from nybble to
    child node, modelled as an association list), Depth. -/
inductive AddressTreeNode : Type where
  | mk (childrenCount : Int) (children : List (Nat × AddressTreeNode)) (depth : Nat) : AddressTreeNode

/-- The ChildrenCount field of a node. -/
def AddressTreeNode.childrenCount : AddressTreeNode → Int
  | .mk c _ _ => c

/-- The Children field of a node. -/
def AddressTreeNode.children : AddressTreeNode → List (Nat × AddressTreeNode)
  | .mk _ ch _ => ch

/-- The Depth field of a node. -/
def AddressTreeNode.depth : AddressTreeNode → Nat
  | .mk _ _ d => d

@[simp] theorem AddressTreeNode.childrenCount_mk (c : Int) (ch : List (Nat × AddressTreeNode)) (d : Nat) :
    (AddressTreeNode.mk c ch d).childrenCount = c := rfl

@[simp] theorem AddressTreeNode.children_mk (c : Int) (ch : List (Nat × AddressTreeNode)) (d : Nat) :
    (AddressTreeNode.mk c ch d).children = ch := rfl

@[simp] theorem AddressTreeNode.depth_mk (c : Int) (ch : List (Nat × AddressTreeNode)) (d : Nat) :
    (AddressTreeNode.mk c ch d).depth = d := rfl

/-- AddressTree: the root container, a node without a depth field. -/
structure AddressTree : Type where
  childrenCount : Int
  children : List (Nat × AddressTreeNode)

/-- Go map read m[k]: first binding of key k in the association list. -/
def lookupChild : List (Nat × AddressTreeNode) → Nat → Option AddressTreeNode
  | [], _ => none
  | (k, v) :: rest, key => if k = key then some v else lookupChild rest key

/-- Go map write m[k] = v: replace the binding of k, or append a new one. -/
def setChild : List (Nat × AddressTreeNode) → Nat → AddressTreeNode → List (Nat × AddressTreeNode)
  | [], key, node => [(key, node)]
  | (k, v) :: rest, key, node =>
      if k = key then (key, node) :: rest else (k, v) :: setChild rest key node

/-- Modelled from the spec (section 6, symbol codec): the external
    addressing.GetNybblesFromIP, whose source is not part of this repository.
    It returns the leading nybbleCount symbols of the address. -/
def GetNybblesFromIP (ip : Addr) (nybbleCount : Nat) : List Nat :=
  ip.take nybbleCount

/-- Modelled from the spec (section 6, symbol codec): the external
    addressing.NybblesToIP; with addresses identified with their nybble
    sequences it is the identity, so the round-trip contract holds. -/
def NybblesToIP (nybbles : List Nat) : Addr := nybbles

/-- A net.IPNet: base address plus the number of one bits of the mask
    (the first return of Mask.Size). -/
structure IPNet : Type where
  ip : Addr
  maskOnes : Nat

/-- The error surface of the range queries. The only error the code ever
    builds is the fmt.Errorf for a mask size that is not a nybble boundary;
    it carries the offending bit length. -/
inductive TreeErr : Type where
  | unaligned (maskBits : Nat) : TreeErr
deriving DecidableEq

/-- The ([]*net.IP, error) return of GetIPsInRange, or a runtime panic. -/
inductive IPsResult : Type where
  | ret (ips : List Addr) (err : Option TreeErr) : IPsResult
  | panicked : IPsResult
deriving DecidableEq

/-- The (int64, error) return of CountIPsInRange, or a runtime panic. -/
inductive CountResult : Type where
  | ret (count : Int) (err : Option TreeErr) : CountResult
  | panicked : CountResult
deriving DecidableEq

/-- newAddressTree. -/
def newAddressTree : AddressTree :=
  { childrenCount := 0, children := [] }

/-- newAddressTreeNode. -/
def newAddressTreeNode (depth : Nat) : AddressTreeNode :=
  .mk 0 [] depth

/-- AddressTreeNode.containsNybbles. The empty case is unreachable: Go reads
    nybbles[0] unconditionally, and every call site passes a non-empty list
    (31 remaining nybbles of a 32-nybble address). -/
def containsNybbles : AddressTreeNode → List Nat → Bool
  | _, [] => false
  | node, n :: rest =>
    match lookupChild node.children n with
    | none => false
    | some val => if rest.isEmpty then true else containsNybbles val rest

/-- AddressTree.containsIPByNybbles. The empty case is unreachable: Go reads
    nybbles[0] unconditionally, and every call site passes 32 nybbles. -/
def containsIPByNybbles (t : AddressTree) (nybbles : List Nat) : Bool :=
  match nybbles with
  | [] => false
  | n :: rest =>
    match lookupChild t.children n with
    | none => false
    | some val => containsNybbles val rest

/-- AddressTree.ContainsIP. -/
def ContainsIP (t : AddressTree) (toCheck : Addr) : Bool :=
  containsIPByNybbles t (GetNybblesFromIP toCheck 32)

/-- AddressTreeNode.addNybbles: on a non-empty list, fetch or create the
    child for the leading nybble, recurse into it with the remainder, and
    increment the ChildrenCount of this node. On the empty list return with no
    mutation (in particular a deepest-level node, which always receives the
    empty remainder, is never incremented). -/
def addNybbles : AddressTreeNode → List Nat → AddressTreeNode
  | node, [] => node
  | node, n :: rest =>
    let child :=
      match lookupChild node.children n with
      | some c => c
      | none => newAddressTreeNode (node.depth + 1)
    AddressTreeNode.mk (node.childrenCount + 1) (setChild node.children n (addNybbles child rest))
      node.depth

/-- AddressTree.AddIP: duplicate check first (no mutation on a duplicate),
    otherwise create the first-level child if missing, add the remaining 31
    nybbles beneath it, and increment the root ChildrenCount. The empty match
    arm is unreachable: GetNybblesFromIP always yields 32 nybbles here (Go
    reads ipNybbles[0] unconditionally). -/
def AddIP (t : AddressTree) (toAdd : Addr) : AddressTree × Bool :=
  let ipNybbles := GetNybblesFromIP toAdd 32
  if containsIPByNybbles t ipNybbles then (t, false)
  else
    match ipNybbles with
    | [] => (t, false)
    | n :: rest =>
      let child :=
        match lookupChild t.children n with
        | some c => c
        | none => newAddressTreeNode 0
      ({ childrenCount := t.childrenCount + 1,
         children := setChild t.children n (addNybbles child rest) }, true)

/-- The loop of AddressTree.AddIPs. Each iteration first evaluates
    i % emitFreq (for the progress log gate); with emitFreq = 0 this is an
    integer division by zero, a Go runtime panic (modelled as none), raised
    before the AddIP call of that iteration. -/
def addIPsLoop : AddressTree → List Addr → Int → Int → Int → Int →
    Option (AddressTree × Int × Int)
  | t, [], _, added, skipped, _ => some (t, added, skipped)
  | t, curAdd :: rest, i, added, skipped, emitFreq =>
    if emitFreq = 0 then none
    else
      match AddIP t curAdd with
      | (t2, true) => addIPsLoop t2 rest (i + 1) (added + 1) skipped emitFreq
      | (t2, false) => addIPsLoop t2 rest (i + 1) added (skipped + 1) emitFreq

/-- AddressTree.AddIPs: returns (added, skipped) alongside the mutated tree,
    or none for the division-by-zero panic. -/
def AddIPs (t : AddressTree) (toAdd : List Addr) (emitFreq : Int) :
    Option (AddressTree × Int × Int) :=
  addIPsLoop t toAdd 0 0 0 emitFreq

/-- CreateFromAddresses: a new tree populated by AddIPs (counts discarded). -/
def CreateFromAddresses (toAdd : List Addr) (emitFreq : Int) : Option AddressTree :=
  match AddIPs newAddressTree toAdd emitFreq with
  | none => none
  | some (t, _, _) => some t

mutual
/-- AddressTreeNode.getAllIPs: a node with no children yields the path to it
    if it sits at depth 31, and nothing (after a logged warning) otherwise;
    an inner node concatenates the results of its children. -/
def getAllIPsNode : AddressTreeNode → List Nat → List Addr
  | .mk _ children depth, parentNybbles =>
    if children.isEmpty then
      if depth ≠ 31 then [] else [NybblesToIP parentNybbles]
    else getAllIPsChildren children parentNybbles
termination_by structural c _ => c

/-- The range loop over the children map inside getAllIPs. -/
def getAllIPsChildren : List (Nat × AddressTreeNode) → List Nat → List Addr
  | [], _ => []
  | (k, v) :: rest, parentNybbles =>
    getAllIPsNode v (parentNybbles ++ [k]) ++ getAllIPsChildren rest parentNybbles
termination_by structural ch _ => ch
end

/-- AddressTree.GetAllIPs: empty when ChildrenCount is 0, otherwise the
    concatenation over the root children of getAllIPs seeded with the
    one-nybble path to each child. -/
def GetAllIPs (t : AddressTree) : List Addr :=
  if t.childrenCount = 0 then []
  else getAllIPsChildren t.children []

/-- AddressTreeNode.seekNode: walk the remaining nybbles; nil (none) as soon
    as a child is missing. -/
def seekNode : AddressTreeNode → List Nat → Option AddressTreeNode
  | node, [] => some node
  | node, n :: rest =>
    match lookupChild node.children n with
    | none => none
    | some val => seekNode val rest

/-- AddressTree.seekChildByNybbles. In Go this returns a (node, error) pair
    whose error is nil on every path; only the possibly-nil node is modelled.
    The empty arm is unreachable (Go reads nybbles[0]; both callers handle the
    empty sequence before calling). -/
def seekChildByNybbles (t : AddressTree) (nybbles : List Nat) : Option AddressTreeNode :=
  match nybbles with
  | [] => none
  | n :: rest =>
    match lookupChild t.children n with
    | none => none
    | some val => seekNode val rest

/-- AddressTree.getSeekNybbles: reject a mask size that is not a multiple of
    4 with the fmt.Errorf (carrying the mask size), otherwise the leading
    ones/4 nybbles of the base address. -/
def getSeekNybbles (fromRange : IPNet) : Except TreeErr (List Nat) :=
  if fromRange.maskOnes % 4 ≠ 0 then .error (.unaligned fromRange.maskOnes)
  else .ok (GetNybblesFromIP fromRange.ip (fromRange.maskOnes / 4))

/-- AddressTree.GetIPsInRange. When the seek finds no node,
    seekChildByNybbles hands back (nil, nil); the nil error takes Go into the
    else branch, where child.getAllIPs dereferences the nil pointer: a
    runtime panic. -/
def GetIPsInRange (t : AddressTree) (fromRange : IPNet) : IPsResult :=
  match getSeekNybbles fromRange with
  | .error e => .ret [] (some e)
  | .ok networkNybbles =>
    if networkNybbles.isEmpty then .ret (GetAllIPs t) none
    else
      match seekChildByNybbles t networkNybbles with
      | none => .panicked
      | some child => .ret (getAllIPsNode child networkNybbles) none

/-- AddressTree.CountIPsInRange. The error paths return -1; a full-width
    sequence of 32 nybbles is answered by the membership walk; as in
    GetIPsInRange, a failed seek dereferences a nil pointer
    (child.ChildrenCount): a runtime panic. -/
def CountIPsInRange (t : AddressTree) (fromRange : IPNet) : CountResult :=
  match getSeekNybbles fromRange with
  | .error e => .ret (-1) (some e)
  | .ok networkNybbles =>
    if networkNybbles.isEmpty then .ret t.childrenCount none
    else if networkNybbles.length = 32 then
      .ret (if containsIPByNybbles t networkNybbles then 1 else 0) none
    else
      match seekChildByNybbles t networkNybbles with
      | none => .panicked
      | some child => .ret child.childrenCount none

/- Specification-side definitions used to state and prove the claims. -/

/-- A relative nybble path is fully present below a node: the pure membership
    relation that the Go walks implement. -/
def memPath : AddressTreeNode → List Nat → Bool
  | _, [] => true
  | node, n :: rest =>
    match lookupChild node.children n with
    | none => false
    | some val => memPath val rest

mutual
/-- The number of childless descendant nodes of a node (itself included). On
    a well-formed tree these are exactly the depth-31 nodes, one per stored
    address below the node. -/
def numLeaves : AddressTreeNode → Nat
  | .mk _ children _ => if children.isEmpty then 1 else numLeavesChildren children

/-- Sum of numLeaves over a children list. -/
def numLeavesChildren : List (Nat × AddressTreeNode) → Nat
  | [] => 0
  | (_, v) :: rest => numLeaves v + numLeavesChildren rest
end

mutual
/-- Structural invariant of a node sitting at depth d, as maintained by
    insertion: the stored depth is d, keys are unique, exactly the
    depth-31 nodes are childless, and ChildrenCount is the number of stored
    addresses below the node at depth below 31 and 0 at depth 31. -/
def WFNode (d : Nat) : AddressTreeNode → Prop
  | .mk count children depth =>
    depth = d ∧ d ≤ 31 ∧
    (children.map Prod.fst).Nodup ∧
    (if d = 31 then children = [] else children ≠ []) ∧
    count = (if d = 31 then 0 else (numLeavesChildren children : Int)) ∧
    WFChildren (d + 1) children

/-- Every node of a children list satisfies WFNode at the given depth. -/
def WFChildren (d : Nat) : List (Nat × AddressTreeNode) → Prop
  | [] => True
  | (_, v) :: rest => WFNode d v ∧ WFChildren d rest
end

/-- Structural invariant of the whole tree. -/
def WFTree (t : AddressTree) : Prop :=
  (t.children.map Prod.fst).Nodup ∧
  t.childrenCount = (numLeavesChildren t.children : Int) ∧
  WFChildren 0 t.children

/-- Boolean list-prefix test, used to state which stored addresses pass
    through a given tree path. -/
def isPref : List Nat → List Nat → Bool
  | [], _ => true
  | _ :: _, [] => false
  | x :: xs, y :: ys => x = y && isPref xs ys

/-- A tree obtained from the empty tree by a sequence of AddIP insertions. -/
def buildAddressTree (addrs : List Addr) : AddressTree :=
  addrs.foldl (fun t a => (AddIP t a).1) newAddressTree

/- Association-list (Go map) lemmas. -/

theorem lookupChild_setChild_self (ch : List (Nat × AddressTreeNode)) (k : Nat) (v : AddressTreeNode) :
    lookupChild (setChild ch k v) k = some v := by
  induction ch with
  | nil => simp [setChild, lookupChild]
  | cons hd rest ih =>
    obtain ⟨k0, v0⟩ := hd
    by_cases h : k0 = k
    · simp [setChild, h, lookupChild]
    · simp [setChild, h, lookupChild, ih]

theorem lookupChild_setChild_ne (ch : List (Nat × AddressTreeNode)) (k k2 : Nat) (v : AddressTreeNode)
    (h : k ≠ k2) : lookupChild (setChild ch k v) k2 = lookupChild ch k2 := by
  induction ch with
  | nil => simp [setChild, lookupChild, h]
  | cons hd rest ih =>
    obtain ⟨k0, v0⟩ := hd
    by_cases h0 : k0 = k
    · subst h0
      simp [setChild, lookupChild, h]
    · simp [setChild, h0, lookupChild, ih]

theorem setChild_of_lookupChild_none (ch : List (Nat × AddressTreeNode)) (k : Nat) (v : AddressTreeNode)
    (h : lookupChild ch k = none) : setChild ch k v = ch ++ [(k, v)] := by
  induction ch with
  | nil => simp [setChild]
  | cons hd rest ih =>
    obtain ⟨k0, v0⟩ := hd
    by_cases h0 : k0 = k
    · simp [lookupChild, h0] at h
    · simp [lookupChild, h0] at h
      simp [setChild, h0, ih h]

theorem keys_setChild_of_lookupChild_some (ch : List (Nat × AddressTreeNode)) (k : Nat)
    (v w : AddressTreeNode) (h : lookupChild ch k = some w) :
    (setChild ch k v).map Prod.fst = ch.map Prod.fst := by
  induction ch with
  | nil => simp [lookupChild] at h
  | cons hd rest ih =>
    obtain ⟨k0, v0⟩ := hd
    by_cases h0 : k0 = k
    · subst h0
      simp [setChild]
    · simp [lookupChild, h0] at h
      simp [setChild, h0, ih h]

theorem lookupChild_eq_none_iff (ch : List (Nat × AddressTreeNode)) (k : Nat) :
    lookupChild ch k = none ↔ k ∉ ch.map Prod.fst := by
  induction ch with
  | nil => simp [lookupChild]
  | cons hd rest ih =>
    obtain ⟨k0, v0⟩ := hd
    by_cases h0 : k0 = k
    · simp [lookupChild, h0]
    · simp [lookupChild, h0, ih, Ne.symm h0]

theorem lookupChild_some_key_mem (ch : List (Nat × AddressTreeNode)) (k : Nat) (v : AddressTreeNode)
    (h : lookupChild ch k = some v) : k ∈ ch.map Prod.fst := by
  by_contra hk
  rw [← lookupChild_eq_none_iff ch k] at hk
  rw [hk] at h
  exact Option.noConfusion h

theorem lookupChild_some_mem (ch : List (Nat × AddressTreeNode)) (k : Nat) (v : AddressTreeNode)
    (h : lookupChild ch k = some v) : (k, v) ∈ ch := by
  induction ch with
  | nil => simp [lookupChild] at h
  | cons hd rest ih =>
    obtain ⟨k0, v0⟩ := hd
    by_cases h0 : k0 = k
    · subst h0
      simp [lookupChild] at h
      simp [h]
    · simp [lookupChild, h0] at h
      simp [ih h]

theorem setChild_ne_nil (ch : List (Nat × AddressTreeNode)) (k : Nat) (v : AddressTreeNode) :
    setChild ch k v ≠ [] := by
  cases ch with
  | nil => simp [setChild]
  | cons hd rest =>
    obtain ⟨k0, v0⟩ := hd
    by_cases h0 : k0 = k <;> simp [setChild, h0]

/- Leaf-count lemmas. -/

theorem numLeavesChildren_append (ch1 ch2 : List (Nat × AddressTreeNode)) :
    numLeavesChildren (ch1 ++ ch2) = numLeavesChildren ch1 + numLeavesChildren ch2 := by
  induction ch1 with
  | nil => simp [numLeavesChildren]
  | cons hd rest ih =>
    obtain ⟨k0, v0⟩ := hd
    simp [numLeavesChildren, ih]
    omega

theorem numLeavesChildren_setChild_some (ch : List (Nat × AddressTreeNode)) (k : Nat)
    (v w : AddressTreeNode) (h : lookupChild ch k = some w) :
    numLeavesChildren (setChild ch k v) + numLeaves w
      = numLeavesChildren ch + numLeaves v := by
  induction ch with
  | nil => simp [lookupChild] at h
  | cons hd rest ih =>
    obtain ⟨k0, v0⟩ := hd
    by_cases h0 : k0 = k
    · subst h0
      simp [lookupChild] at h
      subst h
      simp [setChild, numLeavesChildren]
      omega
    · simp [lookupChild, h0] at h
      simp [setChild, h0, numLeavesChildren]
      have := ih h
      omega

theorem numLeaves_pos : ∀ c : AddressTreeNode, 1 ≤ numLeaves c
  | .mk _ [] _ => by simp [numLeaves]
  | .mk cnt ((k, v) :: rest) d => by
    have h := numLeaves_pos v
    simp [numLeaves, numLeavesChildren]
    omega

theorem numLeavesChildren_eq_zero (ch : List (Nat × AddressTreeNode))
    (h : numLeavesChildren ch = 0) : ch = [] := by
  cases ch with
  | nil => rfl
  | cons hd rest =>
    obtain ⟨k0, v0⟩ := hd
    have := numLeaves_pos v0
    simp [numLeavesChildren] at h
    omega

/- Well-formedness structural lemmas. -/

theorem WFChildren_lookupChild (d : Nat) (ch : List (Nat × AddressTreeNode)) (k : Nat) (v : AddressTreeNode)
    (hwf : WFChildren d ch) (h : lookupChild ch k = some v) : WFNode d v := by
  induction ch with
  | nil => simp [lookupChild] at h
  | cons hd rest ih =>
    obtain ⟨k0, v0⟩ := hd
    obtain ⟨h1, h2⟩ := hwf
    by_cases h0 : k0 = k
    · simp [lookupChild, h0] at h
      subst h
      exact h1
    · simp [lookupChild, h0] at h
      exact ih h2 h

theorem WFChildren_setChild (d : Nat) (ch : List (Nat × AddressTreeNode)) (k : Nat) (v : AddressTreeNode)
    (hwf : WFChildren d ch) (hv : WFNode d v) : WFChildren d (setChild ch k v) := by
  induction ch with
  | nil => exact ⟨hv, trivial⟩
  | cons hd rest ih =>
    obtain ⟨k0, v0⟩ := hd
    obtain ⟨h1, h2⟩ := hwf
    by_cases h0 : k0 = k
    · simp only [setChild, h0, if_pos]
      exact ⟨hv, h2⟩
    · simp only [setChild, h0, if_neg, ite_false]
      exact ⟨h1, ih h2⟩

theorem WFChildren_append (d : Nat) (ch1 ch2 : List (Nat × AddressTreeNode))
    (h1 : WFChildren d ch1) (h2 : WFChildren d ch2) : WFChildren d (ch1 ++ ch2) := by
  induction ch1 with
  | nil => exact h2
  | cons hd rest ih =>
    obtain ⟨k0, v0⟩ := hd
    obtain ⟨ha, hb⟩ := h1
    exact ⟨ha, ih hb⟩

/- Bridges between the Go walks and the pure membership relation. -/

theorem memPath_eq_isSome_seekNode : ∀ (l : List Nat) (c : AddressTreeNode),
    memPath c l = (seekNode c l).isSome := by
  intro l
  induction l with
  | nil => intro c; simp [memPath, seekNode]
  | cons n rest ih =>
    intro c
    simp only [memPath, seekNode]
    cases h : lookupChild c.children n with
    | none => simp
    | some v => simp [ih v]

theorem containsNybbles_eq_memPath : ∀ (l : List Nat) (c : AddressTreeNode), l ≠ [] →
    containsNybbles c l = memPath c l := by
  intro l
  induction l with
  | nil => intro c h; exact absurd rfl h
  | cons n rest ih =>
    intro c _
    simp only [containsNybbles, memPath]
    cases h : lookupChild c.children n with
    | none => rfl
    | some v =>
      cases hr : rest with
      | nil => simp [memPath]
      | cons m q =>
        simp only [List.isEmpty_cons, if_false, Bool.false_eq_true, ite_false]
        rw [← hr, ih v (by simp [hr])]

/- Small general helpers. -/

theorem isEmpty_false_of_ne_nil {α : Type} (l : List α) (h : l ≠ []) :
    l.isEmpty = false := by
  cases l with
  | nil => exact absurd rfl h
  | cons a b => rfl

theorem numLeaves_of_ne_nil (cnt : Int) (ch : List (Nat × AddressTreeNode)) (d : Nat)
    (h : ch ≠ []) : numLeaves (AddressTreeNode.mk cnt ch d) = numLeavesChildren ch := by
  simp [numLeaves, isEmpty_false_of_ne_nil ch h]

/- Insertion lemmas for addNybbles. -/

theorem addNybbles_fresh : ∀ (l : List Nat) (d : Nat), l.length = 31 - d → d ≤ 31 →
    WFNode d (addNybbles (AddressTreeNode.mk 0 [] d) l) ∧
      numLeaves (addNybbles (AddressTreeNode.mk 0 [] d) l) = 1 := by
  intro l
  induction l with
  | nil =>
    intro d h1 h2
    have hd : d = 31 := by simp at h1; omega
    subst hd
    constructor
    · simp [addNybbles, WFNode, WFChildren]
    · simp [addNybbles, numLeaves]
  | cons n rest ih =>
    intro d h1 h2
    have hd : d < 31 := by simp at h1; omega
    have hne : d ≠ 31 := by omega
    have hrest : rest.length = 31 - (d + 1) := by simp at h1; omega
    obtain ⟨hwf, hnl⟩ := ih (d + 1) hrest (by omega)
    have heq : addNybbles (AddressTreeNode.mk 0 [] d) (n :: rest)
        = AddressTreeNode.mk 1 [(n, addNybbles (AddressTreeNode.mk 0 [] (d + 1)) rest)] d := by
      simp [addNybbles, lookupChild, setChild, newAddressTreeNode]
    rw [heq]
    constructor
    · simp only [WFNode, WFChildren]
      refine ⟨trivial, by omega, by simp, ?_, ?_, hwf, trivial⟩
      · rw [if_neg hne]; simp
      · rw [if_neg hne]
        simp [numLeavesChildren, hnl]
    · simp [numLeaves, numLeavesChildren, hnl]

theorem addNybbles_wf : ∀ (l : List Nat) (d : Nat) (c : AddressTreeNode),
    WFNode d c → l.length = 31 - d → memPath c l = false →
    WFNode d (addNybbles c l) ∧ numLeaves (addNybbles c l) = numLeaves c + 1 := by
  intro l
  induction l with
  | nil =>
    intro d c _ _ hmem
    simp [memPath] at hmem
  | cons n rest ih =>
    intro d c hwf h1 hmem
    obtain ⟨cnt, ch, dep⟩ := c
    simp only [WFNode] at hwf
    obtain ⟨hdep, hd31, hnodup, hbranch, hcnt, hch⟩ := hwf
    subst dep
    have hd : d < 31 := by simp at h1; omega
    have hne : d ≠ 31 := by omega
    rw [if_neg hne] at hbranch hcnt
    have hrest : rest.length = 31 - (d + 1) := by simp at h1; omega
    cases hlk : lookupChild ch n with
    | some v =>
      have hmemv : memPath v rest = false := by
        simp only [memPath, AddressTreeNode.children_mk, hlk] at hmem
        exact hmem
      have hwfv : WFNode (d + 1) v := WFChildren_lookupChild _ _ _ _ hch hlk
      obtain ⟨hwf2, hnl2⟩ := ih (d + 1) v hwfv hrest hmemv
      have heq : addNybbles (AddressTreeNode.mk cnt ch d) (n :: rest)
          = AddressTreeNode.mk (cnt + 1) (setChild ch n (addNybbles v rest)) d := by
        simp [addNybbles, hlk]
      rw [heq]
      have hkeys := keys_setChild_of_lookupChild_some ch n (addNybbles v rest) v hlk
      have hset := numLeavesChildren_setChild_some ch n (addNybbles v rest) v hlk
      have hnlc : numLeavesChildren (setChild ch n (addNybbles v rest))
          = numLeavesChildren ch + 1 := by omega
      constructor
      · simp only [WFNode]
        refine ⟨trivial, hd31, ?_, ?_, ?_, ?_⟩
        · rw [hkeys]; exact hnodup
        · rw [if_neg hne]; exact setChild_ne_nil _ _ _
        · rw [if_neg hne, hnlc, hcnt]; push_cast; ring
        · exact WFChildren_setChild _ _ _ _ hch hwf2
      · rw [numLeaves_of_ne_nil _ _ _ (setChild_ne_nil _ _ _),
          numLeaves_of_ne_nil _ _ _ hbranch, hnlc]
    | none =>
      have hnotmem : n ∉ ch.map Prod.fst := (lookupChild_eq_none_iff ch n).mp hlk
      obtain ⟨hwfc, hnlc1⟩ := addNybbles_fresh rest (d + 1) hrest (by omega)
      have heq : addNybbles (AddressTreeNode.mk cnt ch d) (n :: rest)
          = AddressTreeNode.mk (cnt + 1)
            (ch ++ [(n, addNybbles (AddressTreeNode.mk 0 [] (d + 1)) rest)]) d := by
        simp [addNybbles, hlk, newAddressTreeNode,
          setChild_of_lookupChild_none ch n _ hlk]
      rw [heq]
      constructor
      · simp only [WFNode]
        refine ⟨trivial, hd31, ?_, ?_, ?_, ?_⟩
        · simp [List.nodup_append, hnodup, hnotmem]
        · rw [if_neg hne]; simp
        · rw [if_neg hne, numLeavesChildren_append]
          simp [numLeavesChildren, hnlc1, hcnt]
        · exact WFChildren_append _ _ _ hch ⟨hwfc, trivial⟩
      · rw [numLeaves_of_ne_nil _ _ _ (by simp), numLeaves_of_ne_nil _ _ _ hbranch,
          numLeavesChildren_append]
        simp [numLeavesChildren, hnlc1]

theorem memPath_addNybbles : ∀ (l p : List Nat) (c : AddressTreeNode), p.length = l.length →
    (memPath (addNybbles c l) p = true ↔ memPath c p = true ∨ p = l) := by
  intro l
  induction l with
  | nil =>
    intro p c hlen
    have hp : p = [] := by
      cases p with
      | nil => rfl
      | cons x xs => simp at hlen
    subst hp
    simp [addNybbles, memPath]
  | cons n rest ih =>
    intro p c hlen
    cases p with
    | nil => simp at hlen
    | cons m q =>
      have hq : q.length = rest.length := by simp at hlen; omega
      obtain ⟨cnt, ch, dep⟩ := c
      by_cases hmn : m = n
      · subst hmn
        cases hlk : lookupChild ch m with
        | some v =>
          have heq : addNybbles (AddressTreeNode.mk cnt ch dep) (m :: rest)
              = AddressTreeNode.mk (cnt + 1) (setChild ch m (addNybbles v rest)) dep := by
            simp [addNybbles, hlk]
          rw [heq]
          have hlk2 := lookupChild_setChild_self ch m (addNybbles v rest)
          simp only [memPath, AddressTreeNode.children_mk, hlk, hlk2]
          rw [ih q v hq]
          simp
        | none =>
          have heq : addNybbles (AddressTreeNode.mk cnt ch dep) (m :: rest)
              = AddressTreeNode.mk (cnt + 1)
                (setChild ch m (addNybbles (AddressTreeNode.mk 0 [] (dep + 1)) rest)) dep := by
            simp [addNybbles, hlk, newAddressTreeNode]
          rw [heq]
          have hlk2 := lookupChild_setChild_self ch m
            (addNybbles (AddressTreeNode.mk 0 [] (dep + 1)) rest)
          simp only [memPath, AddressTreeNode.children_mk, hlk, hlk2]
          rw [ih q (AddressTreeNode.mk 0 [] (dep + 1)) hq]
          cases q with
          | nil =>
            have : rest = [] := by
              cases rest with
              | nil => rfl
              | cons x xs => simp at hq
            subst this
            simp [memPath]
          | cons x xs =>
            simp [memPath, lookupChild]
      · -- heads differ: the updated child is not on the path of p
        have heq2 : lookupChild (setChild ch n
            (addNybbles (match lookupChild ch n with
              | some c => c
              | none => newAddressTreeNode (dep + 1)) rest)) m = lookupChild ch m :=
          lookupChild_setChild_ne ch n m _ (fun h => hmn h.symm)
        constructor
        · intro h
          left
          simp only [addNybbles, memPath, AddressTreeNode.children_mk, AddressTreeNode.depth_mk,
            AddressTreeNode.childrenCount_mk, heq2] at h
          simp only [memPath, AddressTreeNode.children_mk]
          exact h
        · intro h
          rcases h with h | h
          · simp only [addNybbles, memPath, AddressTreeNode.children_mk, AddressTreeNode.depth_mk,
              AddressTreeNode.childrenCount_mk, heq2]
            simp only [memPath, AddressTreeNode.children_mk] at h
            exact h
          · simp [List.cons.injEq, hmn] at h

/- AddIP-level lemmas. -/

theorem take32_of_len (a : Addr) (ha : a.length = 32) : GetNybblesFromIP a 32 = a := by
  unfold GetNybblesFromIP
  apply List.take_of_length_le
  omega

theorem AddIP_of_contains (t : AddressTree) (a : Addr) (ha : a.length = 32)
    (hc : containsIPByNybbles t a = true) : AddIP t a = (t, false) := by
  simp [AddIP, take32_of_len a ha, hc]

theorem contains_newAddressTree (l : List Nat) :
    containsIPByNybbles newAddressTree l = false := by
  cases l with
  | nil => rfl
  | cons n rest => simp [containsIPByNybbles, newAddressTree, lookupChild]

theorem AddIP_mem (t : AddressTree) (a b : Addr) (ha : a.length = 32)
    (hb : b.length = 32) :
    (containsIPByNybbles (AddIP t a).1 b = true
      ↔ containsIPByNybbles t b = true ∨ b = a) := by
  by_cases hc : containsIPByNybbles t a = true
  · rw [AddIP_of_contains t a ha hc]
    constructor
    · exact Or.inl
    · rintro (h | rfl)
      · exact h
      · exact hc
  · cases a with
    | nil => simp at ha
    | cons n rest =>
      cases b with
      | nil => simp at hb
      | cons m q =>
        have hq31 : q.length = 31 := by simp at hb; omega
        have hr31 : rest.length = 31 := by simp at ha; omega
        have hqne : q ≠ [] := by cases q with | nil => simp at hq31 | cons x xs => simp
        have hrne : rest ≠ [] := by
          cases rest with | nil => simp at hr31 | cons x xs => simp
        have heq : (AddIP t (n :: rest)).1
            = { childrenCount := t.childrenCount + 1,
                children := setChild t.children n
                  (addNybbles (match lookupChild t.children n with
                    | some c => c
                    | none => newAddressTreeNode 0) rest) } := by
          simp [AddIP, take32_of_len (n :: rest) ha, hc]
        rw [heq]
        by_cases hmn : m = n
        · subst hmn
          have hlk2 := lookupChild_setChild_self t.children m
            (addNybbles (match lookupChild t.children m with
              | some c => c
              | none => newAddressTreeNode 0) rest)
          simp only [containsIPByNybbles, hlk2]
          rw [containsNybbles_eq_memPath q _ hqne]
          rw [memPath_addNybbles rest q _ (by omega)]
          cases hlk : lookupChild t.children m with
          | some v =>
            simp only [hlk]
            rw [containsNybbles_eq_memPath q v hqne]
            simp [List.cons.injEq]
          | none =>
            simp only [hlk]
            have hfq : memPath (newAddressTreeNode 0) q = false := by
              cases q with
              | nil => exact absurd rfl hqne
              | cons x xs => simp [memPath, newAddressTreeNode, lookupChild]
            simp [hfq, List.cons.injEq]
        · have heq2 : lookupChild (setChild t.children n
              (addNybbles (match lookupChild t.children n with
                | some c => c
                | none => newAddressTreeNode 0) rest)) m = lookupChild t.children m :=
            lookupChild_setChild_ne t.children n m _ (fun h => hmn h.symm)
          simp only [containsIPByNybbles, heq2]
          constructor
          · exact Or.inl
          · rintro (h | h)
            · exact h
            · simp [List.cons.injEq, hmn] at h

theorem AddIP_wf (t : AddressTree) (a : Addr) (ha : a.length = 32)
    (hwf : WFTree t) : WFTree (AddIP t a).1 := by
  by_cases hc : containsIPByNybbles t a = true
  · rw [AddIP_of_contains t a ha hc]
    exact hwf
  · cases a with
    | nil => simp at ha
    | cons n rest =>
      obtain ⟨hnodup, hcnt, hch⟩ := hwf
      have hr31 : rest.length = 31 := by simp at ha; omega
      have hrne : rest ≠ [] := by
        cases rest with | nil => simp at hr31 | cons x xs => simp
      have heq : (AddIP t (n :: rest)).1
          = { childrenCount := t.childrenCount + 1,
              children := setChild t.children n
                (addNybbles (match lookupChild t.children n with
                  | some c => c
                  | none => newAddressTreeNode 0) rest) } := by
        simp [AddIP, take32_of_len (n :: rest) ha, hc]
      rw [heq]
      cases hlk : lookupChild t.children n with
      | some v =>
        have hmemv : memPath v rest = false := by
          have : containsNybbles v rest = false := by
            simp only [containsIPByNybbles, hlk] at hc
            simpa using hc
          rw [containsNybbles_eq_memPath rest v hrne] at this
          exact this
        have hwfv : WFNode 0 v := WFChildren_lookupChild _ _ _ _ hch hlk
        obtain ⟨hwf2, hnl2⟩ := addNybbles_wf rest 0 v hwfv (by omega) hmemv
        have hkeys := keys_setChild_of_lookupChild_some t.children n
          (addNybbles v rest) v hlk
        have hset := numLeavesChildren_setChild_some t.children n
          (addNybbles v rest) v hlk
        simp only [hlk]
        refine ⟨?_, ?_, ?_⟩
        · simpa [hkeys] using hnodup
        · have : numLeavesChildren (setChild t.children n (addNybbles v rest))
              = numLeavesChildren t.children + 1 := by omega
          simp only [AddressTree.childrenCount] at hcnt ⊢
          simp [this, hcnt]
        · exact WFChildren_setChild _ _ _ _ hch hwf2
      | none =>
        have hnotmem : n ∉ t.children.map Prod.fst :=
          (lookupChild_eq_none_iff t.children n).mp hlk
        obtain ⟨hwfc, hnlc1⟩ := addNybbles_fresh rest 0 (by omega) (by omega)
        simp only [hlk]
        rw [setChild_of_lookupChild_none t.children n _ hlk]
        refine ⟨?_, ?_, ?_⟩
        · simp [List.nodup_append, hnodup, hnotmem]
        · simp only [AddressTree.childrenCount] at hcnt ⊢
          rw [numLeavesChildren_append]
          simp [numLeavesChildren, newAddressTreeNode, hnlc1, hcnt]
        · exact WFChildren_append _ _ _ hch ⟨by simpa [newAddressTreeNode] using hwfc, trivial⟩

/- Folded insertion lemmas. -/

theorem foldAddIP_wf : ∀ (S : List Addr) (t : AddressTree), WFTree t →
    (∀ a ∈ S, a.length = 32) →
    WFTree (S.foldl (fun t a => (AddIP t a).1) t) := by
  intro S
  induction S with
  | nil => intro t hwf _; exact hwf
  | cons a S ih =>
    intro t hwf hS
    simp only [List.foldl_cons]
    exact ih _ (AddIP_wf t a (hS a (by simp)) hwf) (fun b hb => hS b (by simp [hb]))

theorem newAddressTree_wf : WFTree newAddressTree := by
  refine ⟨by simp [newAddressTree], by simp [newAddressTree, numLeavesChildren], trivial⟩

theorem buildAddressTree_wf (S : List Addr) (hS : ∀ a ∈ S, a.length = 32) :
    WFTree (buildAddressTree S) :=
  foldAddIP_wf S newAddressTree newAddressTree_wf hS

theorem foldAddIP_mem : ∀ (S : List Addr) (t : AddressTree) (b : Addr),
    (∀ a ∈ S, a.length = 32) → b.length = 32 →
    (containsIPByNybbles (S.foldl (fun t a => (AddIP t a).1) t) b = true
      ↔ containsIPByNybbles t b = true ∨ b ∈ S) := by
  intro S
  induction S with
  | nil => intro t b _ _; simp
  | cons a S ih =>
    intro t b hS hb
    simp only [List.foldl_cons]
    rw [ih _ b (fun x hx => hS x (by simp [hx])) hb,
      AddIP_mem t a b (hS a (by simp)) hb]
    simp [or_assoc]

theorem buildAddressTree_mem (S : List Addr) (b : Addr)
    (hS : ∀ a ∈ S, a.length = 32) (hb : b.length = 32) :
    (containsIPByNybbles (buildAddressTree S) b = true ↔ b ∈ S) := by
  unfold buildAddressTree
  rw [foldAddIP_mem S newAddressTree b hS hb, contains_newAddressTree]
  simp

/- Seek lemmas. -/

theorem seekNode_wf : ∀ (r : List Nat) (c : AddressTreeNode) (d : Nat) (m : AddressTreeNode),
    WFNode d c → seekNode c r = some m → WFNode (d + r.length) m := by
  intro r
  induction r with
  | nil =>
    intro c d m hwf h
    simp [seekNode] at h
    subst h
    simpa using hwf
  | cons n rest ih =>
    intro c d m hwf h
    simp only [seekNode] at h
    cases hlk : lookupChild c.children n with
    | none => rw [hlk] at h; exact Option.noConfusion h
    | some v =>
      rw [hlk] at h
      obtain ⟨cnt, ch, dep⟩ := c
      simp only [WFNode] at hwf
      obtain ⟨hdep, hd31, hnodup, hbranch, hcnt, hch⟩ := hwf
      have hwfv : WFNode (d + 1) v :=
        WFChildren_lookupChild _ _ _ _ hch (by simpa using hlk)
      have := ih v (d + 1) m hwfv h
      simpa [Nat.add_comm, Nat.add_assoc, Nat.add_left_comm] using this

theorem seekChildByNybbles_wf (t : AddressTree) (p : List Nat) (m : AddressTreeNode)
    (hwf : WFTree t) (h : seekChildByNybbles t p = some m) :
    1 ≤ p.length ∧ WFNode (p.length - 1) m := by
  cases p with
  | nil => simp [seekChildByNybbles] at h
  | cons n rest =>
    simp only [seekChildByNybbles] at h
    cases hlk : lookupChild t.children n with
    | none => rw [hlk] at h; exact Option.noConfusion h
    | some v =>
      rw [hlk] at h
      obtain ⟨hnodup, hcnt, hch⟩ := hwf
      have hwfv : WFNode 0 v := WFChildren_lookupChild _ _ _ _ hch hlk
      have := seekNode_wf rest v 0 m hwfv h
      constructor
      · simp
      · simpa using this

theorem seekChildByNybbles_isSome_eq_contains (t : AddressTree) (n : Nat)
    (q : List Nat) (hq : q ≠ []) :
    (seekChildByNybbles t (n :: q)).isSome = containsIPByNybbles t (n :: q) := by
  simp only [seekChildByNybbles, containsIPByNybbles]
  cases hlk : lookupChild t.children n with
  | none => simp
  | some v =>
    show (seekNode v q).isSome = containsNybbles v q
    rw [containsNybbles_eq_memPath q v hq, memPath_eq_isSome_seekNode]

/- Enumeration lemmas: length. -/

mutual
theorem length_getAllIPsNode : ∀ (c : AddressTreeNode) (d : Nat) (parent : List Nat),
    WFNode d c → (getAllIPsNode c parent).length = numLeaves c
  | .mk cnt ch dep, d, parent, hwf => by
    simp only [WFNode] at hwf
    obtain ⟨hdep, hd31, hnodup, hbranch, hcnt, hch⟩ := hwf
    subst dep
    cases ch with
    | nil =>
      by_cases hd : d = 31
      · subst hd
        simp [getAllIPsNode, numLeaves]
      · rw [if_neg hd] at hbranch
        exact absurd rfl hbranch
    | cons hd0 rest0 =>
      have hne : (hd0 :: rest0 : List (Nat × AddressTreeNode)) ≠ [] := by simp
      simp only [getAllIPsNode, isEmpty_false_of_ne_nil _ hne, Bool.false_eq_true,
        if_false]
      rw [numLeaves_of_ne_nil cnt _ d hne]
      exact length_getAllIPsChildren (hd0 :: rest0) (d + 1) parent hch

theorem length_getAllIPsChildren : ∀ (ch : List (Nat × AddressTreeNode)) (d : Nat)
    (parent : List Nat),
    WFChildren d ch → (getAllIPsChildren ch parent).length = numLeavesChildren ch
  | [], _, _, _ => by simp [getAllIPsChildren, numLeavesChildren]
  | (k, v) :: rest, d, parent, hwf => by
    obtain ⟨h1, h2⟩ := hwf
    simp only [getAllIPsChildren, numLeavesChildren, List.length_append]
    rw [length_getAllIPsNode v d (parent ++ [k]) h1,
      length_getAllIPsChildren rest d parent h2]
end

/- Enumeration lemmas: shape of emitted addresses. -/

mutual
theorem shape_getAllIPsNode : ∀ (c : AddressTreeNode) (parent : List Nat) (a : Addr),
    a ∈ getAllIPsNode c parent → ∃ s, a = parent ++ s
  | .mk cnt ch dep, parent, a, h => by
    cases ch with
    | nil =>
      simp only [getAllIPsNode, List.isEmpty_nil, if_true, NybblesToIP] at h
      by_cases hdep : dep = 31
      · simp [hdep] at h
        exact ⟨[], by simp [h]⟩
      · simp [hdep] at h
    | cons hd0 rest0 =>
      simp only [getAllIPsNode, List.isEmpty_cons, Bool.false_eq_true, if_false] at h
      obtain ⟨n, s, hs, _⟩ := shape_getAllIPsChildren (hd0 :: rest0) parent a h
      exact ⟨n :: s, hs⟩

theorem shape_getAllIPsChildren : ∀ (ch : List (Nat × AddressTreeNode)) (parent : List Nat)
    (a : Addr), a ∈ getAllIPsChildren ch parent →
    ∃ n s, a = parent ++ n :: s ∧ n ∈ ch.map Prod.fst
  | [], parent, a, h => by simp [getAllIPsChildren] at h
  | (k, v) :: rest, parent, a, h => by
    simp only [getAllIPsChildren, List.mem_append] at h
    rcases h with h | h
    · obtain ⟨s, hs⟩ := shape_getAllIPsNode v (parent ++ [k]) a h
      exact ⟨k, s, by simp [hs], by simp⟩
    · obtain ⟨n, s, hs, hn⟩ := shape_getAllIPsChildren rest parent a h
      exact ⟨n, s, hs, by simp [hn]⟩
end

/- Enumeration lemmas: membership characterization. -/

mutual
theorem mem_getAllIPsNode : ∀ (c : AddressTreeNode) (d : Nat) (parent : List Nat) (a : Addr),
    WFNode d c →
    (a ∈ getAllIPsNode c parent
      ↔ ∃ r, a = parent ++ r ∧ memPath c r = true ∧ r.length = 31 - d)
  | .mk cnt ch dep, d, parent, a, hwf => by
    simp only [WFNode] at hwf
    obtain ⟨hdep, hd31, hnodup, hbranch, hcnt, hch⟩ := hwf
    subst dep
    cases ch with
    | nil =>
      by_cases hd : d = 31
      · subst hd
        simp only [getAllIPsNode, List.isEmpty_nil, if_true, NybblesToIP,
          Nat.sub_self, ne_eq, not_true_eq_false, if_false, List.mem_singleton]
        constructor
        · intro h
          exact ⟨[], by simp [h], by simp [memPath], by simp⟩
        · rintro ⟨r, hr, _, hlen⟩
          have : r = [] := List.eq_nil_of_length_eq_zero hlen
          subst this
          simp at hr
          exact hr
      · rw [if_neg hd] at hbranch
        exact absurd rfl hbranch
    | cons hd0 rest0 =>
      have hdne : d ≠ 31 := by
        intro hd
        rw [if_pos hd] at hbranch
        exact List.noConfusion hbranch
      have hdlt : d < 31 := by omega
      have hne : (hd0 :: rest0 : List (Nat × AddressTreeNode)) ≠ [] := by simp
      simp only [getAllIPsNode, List.isEmpty_cons, Bool.false_eq_true, if_false]
      rw [mem_getAllIPsChildren (hd0 :: rest0) (d + 1) parent a hch hnodup]
      constructor
      · rintro ⟨n, r, ha, v, hlk, hmem, hlen⟩
        refine ⟨n :: r, ha, ?_, by simp; omega⟩
        simp only [memPath, AddressTreeNode.children_mk, hlk]
        exact hmem
      · rintro ⟨r, ha, hmem, hlen⟩
        cases r with
        | nil => simp at hlen; omega
        | cons n r2 =>
          simp only [memPath, AddressTreeNode.children_mk] at hmem
          cases hlk : lookupChild (hd0 :: rest0) n with
          | none => rw [hlk] at hmem; simp at hmem
          | some v =>
            rw [hlk] at hmem
            exact ⟨n, r2, ha, v, hlk, hmem, by simp at hlen; omega⟩

theorem mem_getAllIPsChildren : ∀ (ch : List (Nat × AddressTreeNode)) (d : Nat)
    (parent : List Nat) (a : Addr),
    WFChildren d ch → (ch.map Prod.fst).Nodup →
    (a ∈ getAllIPsChildren ch parent
      ↔ ∃ n r, a = parent ++ n :: r
          ∧ ∃ v, lookupChild ch n = some v ∧ memPath v r = true ∧ r.length = 31 - d)
  | [], d, parent, a, _, _ => by simp [getAllIPsChildren, lookupChild]
  | (k, v) :: rest, d, parent, a, hwf, hnodup => by
    obtain ⟨h1, h2⟩ := hwf
    have hknotin : k ∉ rest.map Prod.fst := by
      simp only [List.map_cons, List.nodup_cons] at hnodup
      exact hnodup.1
    have hnodup2 : (rest.map Prod.fst).Nodup := by
      simp only [List.map_cons, List.nodup_cons] at hnodup
      exact hnodup.2
    simp only [getAllIPsChildren, List.mem_append]
    rw [mem_getAllIPsNode v d (parent ++ [k]) a h1,
      mem_getAllIPsChildren rest d parent a h2 hnodup2]
    constructor
    · rintro (⟨r, ha, hmem, hlen⟩ | ⟨n, r, ha, w, hlk, hmem, hlen⟩)
      · exact ⟨k, r, by simp [ha], v, by simp [lookupChild], hmem, hlen⟩
      · have hkn : k ≠ n := by
          intro hk
          exact hknotin (hk ▸ lookupChild_some_key_mem rest n w hlk)
        exact ⟨n, r, ha, w, by simp [lookupChild, hkn, hlk], hmem, hlen⟩
    · rintro ⟨n, r, ha, w, hlk, hmem, hlen⟩
      by_cases hkn : k = n
      · subst hkn
        simp only [lookupChild, if_pos] at hlk
        left
        refine ⟨r, by simp [ha], ?_, hlen⟩
        have : w = v := by
          simp at hlk
          exact hlk.symm
        subst this
        exact hmem
      · right
        simp only [lookupChild, hkn, if_false, ite_false] at hlk
        exact ⟨n, r, ha, w, hlk, hmem, hlen⟩
end

/- Prefix-test lemmas. -/

theorem isPref_self_append : ∀ (p s : List Nat), isPref p (p ++ s) = true := by
  intro p
  induction p with
  | nil => intro s; rfl
  | cons x xs ih => intro s; simp [isPref, ih]

theorem isPref_cancel : ∀ (q r a : List Nat), isPref (q ++ r) (q ++ a) = isPref r a := by
  intro q
  induction q with
  | nil => intro r a; rfl
  | cons x xs ih => intro r a; simp [isPref, ih]

theorem isPref_append_cons_self : ∀ (q : List Nat) (n : Nat) (r : List Nat),
    isPref (q ++ n :: r) q = false := by
  intro q
  induction q with
  | nil => intro n r; rfl
  | cons x xs ih => intro n r; simp [isPref, ih]

theorem filter_eq_self_of_all {α : Type} : ∀ (l : List α) (p : α → Bool),
    (∀ a ∈ l, p a = true) → l.filter p = l := by
  intro l p
  induction l with
  | nil => intro _; rfl
  | cons x xs ih =>
    intro h
    rw [List.filter_cons, if_pos (h x (List.mem_cons_self x xs)),
      ih (fun a ha => h a (List.mem_cons_of_mem x ha))]

theorem filter_eq_nil_of_all {α : Type} : ∀ (l : List α) (p : α → Bool),
    (∀ a ∈ l, p a = false) → l.filter p = [] := by
  intro l p
  induction l with
  | nil => intro _; rfl
  | cons x xs ih =>
    intro h
    rw [List.filter_cons, if_neg (by simp [h x (List.mem_cons_self x xs)]),
      ih (fun a ha => h a (List.mem_cons_of_mem x ha))]

theorem append_cons_head_eq {α : Type} : ∀ (p : List α) (x y : α) (s t : List α),
    p ++ x :: s = p ++ y :: t → x = y := by
  intro p
  induction p with
  | nil =>
    intro x y s t h
    simp at h
    exact h.1
  | cons z p ih =>
    intro x y s t h
    simp at h
    exact h.1

/- Enumeration lemmas: no duplicates. -/

mutual
theorem nodup_getAllIPsNode : ∀ (c : AddressTreeNode) (d : Nat) (parent : List Nat),
    WFNode d c → (getAllIPsNode c parent).Nodup
  | .mk cnt ch dep, d, parent, hwf => by
    simp only [WFNode] at hwf
    obtain ⟨hdep, hd31, hnodup, hbranch, hcnt, hch⟩ := hwf
    subst dep
    cases ch with
    | nil =>
      simp only [getAllIPsNode, List.isEmpty_nil, if_true]
      split
      · exact List.nodup_nil
      · simp
    | cons hd0 rest0 =>
      simp only [getAllIPsNode, List.isEmpty_cons, Bool.false_eq_true, if_false]
      exact nodup_getAllIPsChildren (hd0 :: rest0) (d + 1) parent hch hnodup

theorem nodup_getAllIPsChildren : ∀ (ch : List (Nat × AddressTreeNode)) (d : Nat)
    (parent : List Nat),
    WFChildren d ch → (ch.map Prod.fst).Nodup → (getAllIPsChildren ch parent).Nodup
  | [], _, _, _, _ => by simp [getAllIPsChildren]
  | (k, v) :: rest, d, parent, hwf, hnodup => by
    obtain ⟨h1, h2⟩ := hwf
    have hknotin : k ∉ rest.map Prod.fst := by
      simp only [List.map_cons, List.nodup_cons] at hnodup
      exact hnodup.1
    have hnodup2 : (rest.map Prod.fst).Nodup := by
      simp only [List.map_cons, List.nodup_cons] at hnodup
      exact hnodup.2
    simp only [getAllIPsChildren]
    rw [List.nodup_append]
    refine ⟨nodup_getAllIPsNode v d (parent ++ [k]) h1,
      nodup_getAllIPsChildren rest d parent h2 hnodup2, ?_⟩
    intro a ha hb
    obtain ⟨s, hs⟩ := shape_getAllIPsNode v (parent ++ [k]) a ha
    obtain ⟨n, s2, hs2, hn⟩ := shape_getAllIPsChildren rest parent a hb
    have h3 : parent ++ k :: s = parent ++ n :: s2 := by
      have h4 := hs.symm.trans hs2
      simpa using h4
    have : k = n := append_cons_head_eq parent k n s s2 h3
    exact hknotin (this ▸ hn)
end

/- Enumeration lemmas: filtering the enumeration by a path prefix is the same
   as enumerating the subtree the path seeks to. -/

mutual
theorem filter_getAllIPsNode : ∀ (r : List Nat) (c : AddressTreeNode) (d : Nat) (q : List Nat),
    WFNode d c →
    (getAllIPsNode c q).filter (fun a => isPref (q ++ r) a)
      = (match seekNode c r with
         | none => []
         | some m => getAllIPsNode m (q ++ r))
  | r, .mk cnt ch dep, d, q, hwf => by
    simp only [WFNode] at hwf
    obtain ⟨hdep, hd31, hnodup, hbranch, hcnt, hch⟩ := hwf
    subst dep
    cases ch with
    | nil =>
      by_cases hd : d = 31
      · subst hd
        cases r with
        | nil =>
          have hqq : isPref q q = true := by
            have h := isPref_self_append q []
            rwa [List.append_nil] at h
          simp [getAllIPsNode, NybblesToIP, seekNode, List.filter_cons, hqq]
        | cons m r2 =>
          simp [getAllIPsNode, NybblesToIP, seekNode, lookupChild, List.filter_cons,
            isPref_append_cons_self]
      · rw [if_neg hd] at hbranch
        exact absurd rfl hbranch
    | cons hd0 rest0 =>
      have hne : (hd0 :: rest0 : List (Nat × AddressTreeNode)) ≠ [] := by simp
      simp only [getAllIPsNode, List.isEmpty_cons, Bool.false_eq_true, if_false]
      cases r with
      | nil =>
        simp only [seekNode, List.append_nil]
        apply filter_eq_self_of_all
        intro a ha
        obtain ⟨n, s, hs, _⟩ := shape_getAllIPsChildren (hd0 :: rest0) q a ha
        subst hs
        exact isPref_self_append q (n :: s)
      | cons m r2 =>
        rw [filter_getAllIPsChildren m r2 (hd0 :: rest0) (d + 1) q hch hnodup]
        cases hlk : lookupChild (hd0 :: rest0) m with
        | none => simp [seekNode, hlk]
        | some v =>
          simp only [seekNode, AddressTreeNode.children_mk, hlk]

theorem filter_getAllIPsChildren : ∀ (m : Nat) (r2 : List Nat)
    (ch : List (Nat × AddressTreeNode)) (d : Nat) (q : List Nat),
    WFChildren d ch → (ch.map Prod.fst).Nodup →
    (getAllIPsChildren ch q).filter (fun a => isPref (q ++ m :: r2) a)
      = (match lookupChild ch m with
         | none => []
         | some v =>
           match seekNode v r2 with
           | none => []
           | some nd => getAllIPsNode nd (q ++ m :: r2))
  | m, r2, [], d, q, _, _ => by simp [getAllIPsChildren, lookupChild]
  | m, r2, (k, v) :: rest, d, q, hwf, hnodup => by
    obtain ⟨h1, h2⟩ := hwf
    have hknotin : k ∉ rest.map Prod.fst := by
      simp only [List.map_cons, List.nodup_cons] at hnodup
      exact hnodup.1
    have hnodup2 : (rest.map Prod.fst).Nodup := by
      simp only [List.map_cons, List.nodup_cons] at hnodup
      exact hnodup.2
    simp only [getAllIPsChildren, List.filter_append]
    by_cases hkm : k = m
    · subst hkm
      have hre : (getAllIPsChildren rest q).filter (fun a => isPref (q ++ k :: r2) a)
          = [] := by
        apply filter_eq_nil_of_all
        intro a ha
        obtain ⟨n, s, hs, hn⟩ := shape_getAllIPsChildren rest q a ha
        have hkn : k ≠ n := fun h => hknotin (h ▸ hn)
        subst hs
        rw [isPref_cancel q (k :: r2) (n :: s)]
        simp [isPref, hkn]
      rw [hre]
      have hpred : (fun (a : Addr) => isPref (q ++ k :: r2) a)
          = (fun a => isPref ((q ++ [k]) ++ r2) a) := by
        funext a
        congr 1
        simp
      rw [hpred, filter_getAllIPsNode r2 v d (q ++ [k]) h1]
      simp only [lookupChild, if_pos]
      cases hsk : seekNode v r2 with
      | none => simp
      | some nd =>
        simp only [List.append_nil]
        congr 1
        simp
    · have hbl : (getAllIPsNode v (q ++ [k])).filter
          (fun a => isPref (q ++ m :: r2) a) = [] := by
        apply filter_eq_nil_of_all
        intro a ha
        obtain ⟨s, hs⟩ := shape_getAllIPsNode v (q ++ [k]) a ha
        have hs2 : a = q ++ k :: s := by simpa using hs
        subst hs2
        rw [isPref_cancel q (m :: r2) (k :: s)]
        simp [isPref, Ne.symm hkm]
      rw [hbl]
      simp only [List.nil_append]
      rw [filter_getAllIPsChildren m r2 rest d q h2 hnodup2]
      simp only [lookupChild, hkm, ite_false]
end

/- Tree-level corollaries. -/

theorem children_eq_nil_of_count_zero (t : AddressTree) (hwf : WFTree t)
    (h0 : t.childrenCount = 0) : t.children = [] := by
  obtain ⟨_, hcnt, _⟩ := hwf
  apply numLeavesChildren_eq_zero
  have : (numLeavesChildren t.children : Int) = 0 := by rw [← hcnt]; exact h0
  exact_mod_cast this

theorem GetAllIPs_length (t : AddressTree) (hwf : WFTree t) :
    t.childrenCount = ((GetAllIPs t).length : Int) := by
  unfold GetAllIPs
  by_cases h0 : t.childrenCount = 0
  · simp [h0]
  · rw [if_neg h0]
    obtain ⟨hnodup, hcnt, hch⟩ := hwf
    rw [length_getAllIPsChildren t.children 0 [] hch]
    exact hcnt

theorem GetAllIPs_mem (t : AddressTree) (hwf : WFTree t) (a : Addr) :
    (a ∈ GetAllIPs t ↔ a.length = 32 ∧ containsIPByNybbles t a = true) := by
  unfold GetAllIPs
  by_cases h0 : t.childrenCount = 0
  · rw [if_pos h0]
    have hch0 : t.children = [] := children_eq_nil_of_count_zero t hwf h0
    simp only [List.not_mem_nil, false_iff]
    rintro ⟨h32, hcon⟩
    cases a with
    | nil => simp at h32
    | cons n r => simp [containsIPByNybbles, hch0, lookupChild] at hcon
  · rw [if_neg h0]
    obtain ⟨hnodup, hcnt, hch⟩ := hwf
    rw [mem_getAllIPsChildren t.children 0 [] a hch hnodup]
    constructor
    · rintro ⟨n, r, ha, v, hlk, hmem, hlen⟩
      subst ha
      have hrne : r ≠ [] := by
        cases r with
        | nil => simp at hlen
        | cons x xs => simp
      constructor
      · simp
        omega
      · simp only [List.nil_append, containsIPByNybbles, hlk]
        rw [containsNybbles_eq_memPath r v hrne]
        exact hmem
    · rintro ⟨h32, hcon⟩
      cases a with
      | nil => simp at h32
      | cons n r =>
        have hr31 : r.length = 31 := by simp at h32; omega
        have hrne : r ≠ [] := by
          cases r with
          | nil => simp at hr31
          | cons x xs => simp
        simp only [containsIPByNybbles] at hcon
        cases hlk : lookupChild t.children n with
        | none => rw [hlk] at hcon; simp at hcon
        | some v =>
          rw [hlk] at hcon
          have hcon2 : containsNybbles v r = true := hcon
          rw [containsNybbles_eq_memPath r v hrne] at hcon2
          exact ⟨n, r, by simp, v, hlk, hcon2, by omega⟩

theorem GetAllIPs_nodup (t : AddressTree) (hwf : WFTree t) : (GetAllIPs t).Nodup := by
  unfold GetAllIPs
  by_cases h0 : t.childrenCount = 0
  · simp [h0]
  · rw [if_neg h0]
    obtain ⟨hnodup, hcnt, hch⟩ := hwf
    exact nodup_getAllIPsChildren t.children 0 [] hch hnodup

theorem filter_GetAllIPs (t : AddressTree) (hwf : WFTree t) (n : Nat) (r2 : List Nat) :
    (GetAllIPs t).filter (fun a => isPref (n :: r2) a)
      = (match seekChildByNybbles t (n :: r2) with
         | none => []
         | some nd => getAllIPsNode nd (n :: r2)) := by
  unfold GetAllIPs seekChildByNybbles
  by_cases h0 : t.childrenCount = 0
  · rw [if_pos h0]
    have hch0 : t.children = [] := children_eq_nil_of_count_zero t hwf h0
    simp [hch0, lookupChild]
  · rw [if_neg h0]
    obtain ⟨hnodup, hcnt, hch⟩ := hwf
    have h := filter_getAllIPsChildren n r2 t.children 0 [] hch hnodup
    cases hlk : lookupChild t.children n with
    | none => simpa [hlk] using h
    | some v =>
      cases hsk : seekNode v r2 with
      | none => simpa [hlk, hsk] using h
      | some nd => simpa [hlk, hsk] using h

/- The AddIPs loop with a non-zero emitFreq runs the plain AddIP fold. -/

theorem addIPsLoop_eq_fold : ∀ (l : List Addr) (t : AddressTree)
    (i added skipped emitFreq : Int), emitFreq ≠ 0 →
    ∃ ad sk, addIPsLoop t l i added skipped emitFreq
      = some (l.foldl (fun t a => (AddIP t a).1) t, ad, sk) := by
  intro l
  induction l with
  | nil => intro t i a s e he; exact ⟨a, s, rfl⟩
  | cons x xs ih =>
    intro t i a s e he
    rcases hA : AddIP t x with ⟨t2, b⟩
    have hfold : (x :: xs).foldl (fun t a => (AddIP t a).1) t
        = xs.foldl (fun t a => (AddIP t a).1) t2 := by
      simp [List.foldl_cons, hA]
    rw [hfold]
    cases b
    · obtain ⟨ad, sk, h⟩ := ih t2 (i + 1) a (s + 1) e he
      refine ⟨ad, sk, ?_⟩
      simp only [addIPsLoop, if_neg he, hA]
      exact h
    · obtain ⟨ad, sk, h⟩ := ih t2 (i + 1) (a + 1) s e he
      refine ⟨ad, sk, ?_⟩
      simp only [addIPsLoop, if_neg he, hA]
      exact h

theorem CreateFromAddresses_eq_build (S : List Addr) (e : Int) (he : e ≠ 0) :
    CreateFromAddresses S e = some (buildAddressTree S) := by
  obtain ⟨ad, sk, h⟩ := addIPsLoop_eq_fold S newAddressTree 0 0 0 e he
  simp [CreateFromAddresses, AddIPs, h, buildAddressTree]

/- WFNode projections for the claims about counts. -/

theorem WFNode_count_eq_numLeaves (d : Nat) (nd : AddressTreeNode) (hwf : WFNode d nd)
    (hne : d ≠ 31) : nd.childrenCount = (numLeaves nd : Int) := by
  obtain ⟨cnt, ch, dep⟩ := nd
  simp only [WFNode] at hwf
  obtain ⟨hdep, hd31, hnodup, hbranch, hcnt, hch⟩ := hwf
  rw [if_neg hne] at hbranch hcnt
  rw [numLeaves_of_ne_nil cnt ch dep hbranch]
  simpa using hcnt

theorem WFNode_count_eq_zero (d : Nat) (nd : AddressTreeNode) (hwf : WFNode d nd)
    (h31 : d = 31) : nd.childrenCount = 0 := by
  obtain ⟨cnt, ch, dep⟩ := nd
  simp only [WFNode] at hwf
  obtain ⟨hdep, hd31, hnodup, hbranch, hcnt, hch⟩ := hwf
  rw [if_pos h31] at hcnt
  simpa using hcnt

theorem WFNode_numLeaves_of_31 (nd : AddressTreeNode) (hwf : WFNode 31 nd) :
    numLeaves nd = 1 := by
  obtain ⟨cnt, ch, dep⟩ := nd
  simp only [WFNode] at hwf
  obtain ⟨hdep, hd31, hnodup, hbranch, hcnt, hch⟩ := hwf
  simp only [if_true] at hbranch
  subst hbranch
  simp [numLeaves]

/- Concrete test vectors. -/

/-- The all-zero address (32 zero nybbles). -/
def addr0 : Addr := List.replicate 32 0

/-- The address of 32 one nybbles. -/
def addr1 : Addr := List.replicate 32 1

/- Claims. -/

/-- Claim C1 (code bug exhibited): the spec requires that a symbol-aligned,
    non-empty prefix shorter than the full width whose walk fails yields an
    empty list and count 0 with no error; in the code seekChildByNybbles
    returns a nil node with a nil error, and both queries then dereference
    the nil pointer and panic. Here: the empty tree with the 4-bit prefix of
    the zero address. -/
theorem C1_missing_prefix_queries_panic :
    GetIPsInRange (buildAddressTree []) { ip := addr0, maskOnes := 4 } = .panicked
    ∧ CountIPsInRange (buildAddressTree []) { ip := addr0, maskOnes := 4 }
        = .panicked :=
  ⟨by decide, by decide⟩

/-- Claim C2 (code bug exhibited): the spec promises that no operation panics
    on well-formed input, but with the tree holding only the zero address the
    well-formed, aligned 8-bit prefix of the all-ones address makes both range
    queries dereference a nil node pointer and panic. -/
theorem C2_operations_panic_on_wellformed_input :
    GetIPsInRange (buildAddressTree [addr0]) { ip := addr1, maskOnes := 8 }
        = .panicked
    ∧ CountIPsInRange (buildAddressTree [addr0]) { ip := addr1, maskOnes := 8 }
        = .panicked :=
  ⟨by decide, by decide⟩

/-- Claim C7: a prefix whose bit length is not a multiple of 4 makes both
    range queries fail immediately with the unaligned error carrying the
    offending bit length (and, being pure of any tree traversal, they return
    the empty list and -1 respectively). -/
theorem C7_unaligned_rejected (t : AddressTree) (net : IPNet)
    (h : net.maskOnes % 4 ≠ 0) :
    GetIPsInRange t net = .ret [] (some (.unaligned net.maskOnes))
    ∧ CountIPsInRange t net = .ret (-1) (some (.unaligned net.maskOnes)) := by
  constructor
  · unfold GetIPsInRange getSeekNybbles
    rw [if_pos h]
  · unfold CountIPsInRange getSeekNybbles
    rw [if_pos h]

/-- Witness for C7 at mask size 6 on the empty tree. -/
theorem C7_witness_mask6 :
    GetIPsInRange newAddressTree { ip := addr0, maskOnes := 6 }
        = .ret [] (some (.unaligned 6))
    ∧ CountIPsInRange newAddressTree { ip := addr0, maskOnes := 6 }
        = .ret (-1) (some (.unaligned 6)) :=
  C7_unaligned_rejected newAddressTree { ip := addr0, maskOnes := 6 } (by decide)

/-- Claim C9: AddIPs with emitFreq 0 divides by zero (a Go panic) on the very
    first iteration of a non-empty input, before any insertion; with any
    emitFreq of at least 1 it always completes normally. -/
theorem C9_addIPs_emitFreq (t : AddressTree) (l : List Addr) :
    (l ≠ [] → AddIPs t l 0 = none)
    ∧ ∀ e : Int, 1 ≤ e → (AddIPs t l e).isSome = true := by
  constructor
  · intro hl
    cases l with
    | nil => exact absurd rfl hl
    | cons x xs => rfl
  · intro e he
    obtain ⟨ad, sk, h⟩ := addIPsLoop_eq_fold l t 0 0 0 e (by omega)
    unfold AddIPs
    rw [h]
    rfl

/-- Witness for C9: one-element list, emitFreq 0 panics and emitFreq 1
    completes. -/
theorem C9_witness_emitFreq :
    AddIPs newAddressTree [addr0] 0 = none
    ∧ (AddIPs newAddressTree [addr0] 1).isSome = true :=
  ⟨(C9_addIPs_emitFreq newAddressTree [addr0]).1 (by simp),
   (C9_addIPs_emitFreq newAddressTree [addr0]).2 1 (by norm_num)⟩

/-- Claim C10: whenever CountIPsInRange returns a non-nil error, the integer
    it returns alongside is the sentinel -1. -/
theorem C10_error_count_minus_one (t : AddressTree) (net : IPNet) (c : Int)
    (e : TreeErr) (h : CountIPsInRange t net = .ret c (some e)) : c = -1 := by
  unfold CountIPsInRange at h
  cases hsn : getSeekNybbles net with
  | error e2 =>
    rw [hsn] at h
    have h2 : CountResult.ret (-1) (some e2) = CountResult.ret c (some e) := h
    simp only [CountResult.ret.injEq] at h2
    exact h2.1.symm
  | ok nybs =>
    rw [hsn] at h
    exfalso
    cases nybs with
    | nil => simp at h
    | cons n q =>
      simp only [List.isEmpty_cons, Bool.false_eq_true, if_false] at h
      by_cases h32 : (n :: q : List Nat).length = 32
      · rw [if_pos h32] at h
        simp at h
      · rw [if_neg h32] at h
        cases hsk : seekChildByNybbles t (n :: q) with
        | none => rw [hsk] at h; simp at h
        | some nd => rw [hsk] at h; simp at h

/-- Witness for C10 at mask size 6 on the empty tree. -/
theorem C10_witness_minus_one : (-1 : Int) = -1 :=
  C10_error_count_minus_one newAddressTree { ip := addr0, maskOnes := 6 } (-1)
    (.unaligned 6) (by decide)

/-- Claim C4 counterexample: on a tree that already contains the address,
    inserting it twice yields duplicate twice, not added once then duplicate
    once, so the claim read over every tree fails. -/
theorem C4_counterexample_double_insert_existing :
    (AddIP (buildAddressTree [addr1]) addr1).2 = false
    ∧ (AddIP (AddIP (buildAddressTree [addr1]) addr1).1 addr1).2 = false :=
  ⟨by decide, by decide⟩

/-- Claim C4 (amended): if the full-depth path of the address already exists,
    AddIP returns duplicate and the tree value (hence every count) is
    unchanged; the second of two identical insertions therefore always returns
    duplicate with the tree and total count unchanged; and the first insert
    returns added when the address was absent. -/
theorem C4_duplicate_insert_no_mutation (t : AddressTree) (a : Addr)
    (ha : IsAddr a) :
    (ContainsIP t a = true → AddIP t a = (t, false))
    ∧ AddIP (AddIP t a).1 a = ((AddIP t a).1, false)
    ∧ (AddIP (AddIP t a).1 a).1.childrenCount = (AddIP t a).1.childrenCount
    ∧ (ContainsIP t a = false → (AddIP t a).2 = true) := by
  obtain ⟨h32, _⟩ := ha
  have hcon : containsIPByNybbles (AddIP t a).1 a = true := by
    rw [AddIP_mem t a a h32 h32]
    exact Or.inr rfl
  have h2 : AddIP (AddIP t a).1 a = ((AddIP t a).1, false) :=
    AddIP_of_contains (AddIP t a).1 a h32 hcon
  refine ⟨?_, h2, by rw [h2], ?_⟩
  · intro hc
    apply AddIP_of_contains t a h32
    unfold ContainsIP at hc
    rwa [take32_of_len a h32] at hc
  · intro hc
    unfold ContainsIP at hc
    rw [take32_of_len a h32] at hc
    cases a with
    | nil => simp at h32
    | cons n rest => simp [AddIP, take32_of_len _ h32, hc]

/-- Witness for C4 at the zero address over the empty tree: the second insert
    is a duplicate that returns the tree of the first insert unchanged. -/
theorem C4_witness_second_insert_duplicate :
    AddIP (AddIP newAddressTree addr0).1 addr0 = ((AddIP newAddressTree addr0).1, false) :=
  (C4_duplicate_insert_no_mutation newAddressTree addr0 (by decide)).2.1

/-- Claim C6: on a full-width prefix (mask 128, 32 symbols) CountIPsInRange
    answers by the membership walk: 1 when the base address is contained, 0
    otherwise — for every tree, whatever its stored count fields. -/
theorem C6_full_width_membership (t : AddressTree) (net : IPNet)
    (hmask : net.maskOnes = 128) (hip : IsAddr net.ip) :
    CountIPsInRange t net = .ret (if ContainsIP t net.ip then 1 else 0) none := by
  obtain ⟨h32, _⟩ := hip
  have hne : net.ip ≠ [] := by
    intro h
    rw [h] at h32
    simp at h32
  unfold CountIPsInRange getSeekNybbles ContainsIP
  rw [hmask, if_neg (by norm_num : ¬((128 : Nat) % 4 ≠ 0))]
  show (if (GetNybblesFromIP net.ip (128 / 4)).isEmpty then _
        else if (GetNybblesFromIP net.ip (128 / 4)).length = 32 then _ else _) = _
  rw [(by norm_num : (128 : Nat) / 4 = 32), take32_of_len net.ip h32,
    isEmpty_false_of_ne_nil net.ip hne]
  simp only [Bool.false_eq_true, if_false, h32, if_true, take32_of_len net.ip h32]

/-- Witness for C6: the zero address over the empty tree. -/
theorem C6_witness_full_width_empty_tree :
    CountIPsInRange newAddressTree { ip := addr0, maskOnes := 128 }
      = .ret (if ContainsIP newAddressTree addr0 then 1 else 0) none :=
  C6_full_width_membership newAddressTree { ip := addr0, maskOnes := 128 } rfl
    (by decide)

/-- Claim C8: building a tree from a duplicate-free list of well-formed
    addresses (with any usable progress interval) and enumerating it returns
    exactly that set of addresses, as a set, independent of order. -/
theorem C8_round_trip (S : List Addr) (e : Int) (hS : ∀ a ∈ S, IsAddr a)
    (hnd : S.Nodup) (he : e ≠ 0) :
    ∃ t, CreateFromAddresses S e = some t ∧ ∀ a, (a ∈ GetAllIPs t ↔ a ∈ S) := by
  refine ⟨buildAddressTree S, CreateFromAddresses_eq_build S e he, ?_⟩
  intro a
  have hS32 : ∀ a ∈ S, a.length = 32 := fun a ha => (hS a ha).1
  have hwf := buildAddressTree_wf S hS32
  rw [GetAllIPs_mem _ hwf a]
  constructor
  · rintro ⟨h32, hcon⟩
    exact (buildAddressTree_mem S a hS32 h32).mp hcon
  · intro haS
    have h32 := hS32 a haS
    exact ⟨h32, (buildAddressTree_mem S a hS32 h32).mpr haS⟩

/-- Witness for C8 on the two distinct concrete addresses with interval 1. -/
theorem C8_witness_two_addresses :
    ∃ t, CreateFromAddresses [addr0, addr1] 1 = some t
      ∧ ∀ a, (a ∈ GetAllIPs t ↔ a ∈ [addr0, addr1]) :=
  C8_round_trip [addr0, addr1] 1 (by decide) (by decide) (by norm_num)

/-- Claim C3 counterexample: after inserting the single zero address into the
    empty tree, exactly one full-depth path passes through the node at the end
    of that path (the enumeration filtered by the full path has length 1), yet
    that deepest node has count 0: the deepest level is never incremented. -/
theorem C3_counterexample_deepest_count_zero :
    (seekChildByNybbles (buildAddressTree [addr0]) addr0).map AddressTreeNode.childrenCount
      = some 0
    ∧ ((GetAllIPs (buildAddressTree [addr0])).filter
        (fun a => isPref addr0 a)).length = 1 := by
  constructor
  · decide
  · have hS32 : ∀ a ∈ [addr0], a.length = 32 := by decide
    have hwf := buildAddressTree_wf [addr0] hS32
    show (List.filter (fun a => isPref (0 :: List.replicate 31 0) a)
        (GetAllIPs (buildAddressTree [addr0]))).length = 1
    rw [filter_GetAllIPs (buildAddressTree [addr0]) hwf 0 (List.replicate 31 0)]
    cases hsk : seekChildByNybbles (buildAddressTree [addr0])
        (0 :: List.replicate 31 0) with
    | none =>
      exfalso
      have hs : (seekChildByNybbles (buildAddressTree [addr0])
          (0 :: List.replicate 31 0)).isSome = true := by decide
      rw [hsk] at hs
      simp at hs
    | some nd =>
      show (getAllIPsNode nd (0 :: List.replicate 31 0)).length = 1
      obtain ⟨hge, hwfnd⟩ := seekChildByNybbles_wf _ _ _ hwf hsk
      have h31 : (0 :: List.replicate 31 0 : List Nat).length - 1 = 31 := by simp
      rw [h31] at hwfnd
      rw [length_getAllIPsNode nd 31 _ hwfnd]
      exact WFNode_numLeaves_of_31 nd hwfnd

/-- Claim C3 (amended): in a tree built by insertions, for every path that
    resolves to a node: a node reached by a path shorter than the full width
    has count equal to the number of stored full-depth addresses extending
    that path (these are pairwise distinct: the enumeration has no
    duplicates), while a node reached by a full-width path (the deepest
    level) always has count 0 — its count is never incremented. -/
theorem C3_inner_counts_exact_deepest_zero (S : List Addr) (p : List Nat)
    (hS : ∀ a ∈ S, IsAddr a)
    (hsome : (seekChildByNybbles (buildAddressTree S) p).isSome = true) :
    (p.length < 32 →
      (seekChildByNybbles (buildAddressTree S) p).map AddressTreeNode.childrenCount
        = some (((GetAllIPs (buildAddressTree S)).filter
            (fun a => isPref p a)).length : Int))
    ∧ (p.length = 32 →
      (seekChildByNybbles (buildAddressTree S) p).map AddressTreeNode.childrenCount
        = some 0)
    ∧ (GetAllIPs (buildAddressTree S)).Nodup := by
  have hS32 : ∀ a ∈ S, a.length = 32 := fun a ha => (hS a ha).1
  have hwf := buildAddressTree_wf S hS32
  cases hsk : seekChildByNybbles (buildAddressTree S) p with
  | none => rw [hsk] at hsome; simp at hsome
  | some nd =>
    obtain ⟨hge, hwfnd⟩ := seekChildByNybbles_wf _ _ _ hwf hsk
    cases p with
    | nil => simp [seekChildByNybbles] at hsk
    | cons n r2 =>
      refine ⟨?_, ?_, GetAllIPs_nodup _ hwf⟩
      · intro hlt
        rw [filter_GetAllIPs (buildAddressTree S) hwf n r2, hsk]
        show some nd.childrenCount
          = some ((getAllIPsNode nd (n :: r2)).length : Int)
        have hdne : (n :: r2 : List Nat).length - 1 ≠ 31 := by
          simp only [List.length_cons] at hlt ⊢
          omega
        rw [length_getAllIPsNode nd ((n :: r2).length - 1) (n :: r2) hwfnd,
          WFNode_count_eq_numLeaves _ nd hwfnd hdne]
      · intro heq
        show some nd.childrenCount = some 0
        rw [WFNode_count_eq_zero ((n :: r2).length - 1) nd hwfnd (by omega)]

/-- Witness for C3 (amended) at the one-nybble path of the zero address in a
    one-address tree. -/
theorem C3_witness_inner_count :
    (seekChildByNybbles (buildAddressTree [addr0]) [0]).map AddressTreeNode.childrenCount
      = some (((GetAllIPs (buildAddressTree [addr0])).filter
          (fun a => isPref [0] a)).length : Int) :=
  (C3_inner_counts_exact_deepest_zero [addr0] [0] (by decide) (by decide)).1
    (by decide)

/-- Claim C5: whenever both range queries on a tree built by insertions return
    without error, the count returned by CountIPsInRange equals the length of
    the list returned by GetIPsInRange. -/
theorem C5_count_in_range_eq_length (S : List Addr) (net : IPNet)
    (ips : List Addr) (c : Int) (hS : ∀ a ∈ S, IsAddr a)
    (hg : GetIPsInRange (buildAddressTree S) net = .ret ips none)
    (hc : CountIPsInRange (buildAddressTree S) net = .ret c none) :
    c = (ips.length : Int) := by
  have hS32 : ∀ a ∈ S, a.length = 32 := fun a ha => (hS a ha).1
  have hwf := buildAddressTree_wf S hS32
  unfold GetIPsInRange at hg
  unfold CountIPsInRange at hc
  cases hsn : getSeekNybbles net with
  | error e =>
    rw [hsn] at hg
    simp at hg
  | ok nybs =>
    rw [hsn] at hg hc
    cases nybs with
    | nil =>
      simp only [List.isEmpty_nil, if_true] at hg hc
      simp only [IPsResult.ret.injEq] at hg
      simp only [CountResult.ret.injEq] at hc
      obtain ⟨hips, _⟩ := hg
      obtain ⟨hcc, _⟩ := hc
      rw [← hcc, ← hips]
      exact GetAllIPs_length _ hwf
    | cons n q =>
      simp only [List.isEmpty_cons, Bool.false_eq_true, if_false] at hg hc
      by_cases h32 : (n :: q : List Nat).length = 32
      · rw [if_pos h32] at hc
        have hqne : q ≠ [] := by
          intro hq
          subst hq
          simp at h32
        cases hsk : seekChildByNybbles (buildAddressTree S) (n :: q) with
        | none => rw [hsk] at hg; simp at hg
        | some nd =>
          rw [hsk] at hg
          simp only [IPsResult.ret.injEq] at hg
          obtain ⟨hips, _⟩ := hg
          have hcontains :
              containsIPByNybbles (buildAddressTree S) (n :: q) = true := by
            rw [← seekChildByNybbles_isSome_eq_contains _ n q hqne, hsk]
            rfl
          rw [hcontains] at hc
          simp only [if_true] at hc
          simp only [CountResult.ret.injEq] at hc
          obtain ⟨hcc, _⟩ := hc
          obtain ⟨hge, hwfnd⟩ := seekChildByNybbles_wf _ _ _ hwf hsk
          have h31 : (n :: q : List Nat).length - 1 = 31 := by
            simp only [List.length_cons] at h32 ⊢
            omega
          rw [h31] at hwfnd
          rw [← hcc, ← hips, length_getAllIPsNode nd 31 (n :: q) hwfnd,
            WFNode_numLeaves_of_31 nd hwfnd]
          simp
      · rw [if_neg h32] at hc
        cases hsk : seekChildByNybbles (buildAddressTree S) (n :: q) with
        | none => rw [hsk] at hc; simp at hc
        | some nd =>
          rw [hsk] at hg hc
          simp only [IPsResult.ret.injEq] at hg
          simp only [CountResult.ret.injEq] at hc
          obtain ⟨hips, _⟩ := hg
          obtain ⟨hcc, _⟩ := hc
          obtain ⟨hge, hwfnd⟩ := seekChildByNybbles_wf _ _ _ hwf hsk
          have hdne : (n :: q : List Nat).length - 1 ≠ 31 := by
            have hd31 : (n :: q : List Nat).length - 1 ≤ 31 := by
              obtain ⟨cnt, ch, dep⟩ := nd
              simp only [WFNode] at hwfnd
              exact hwfnd.2.1
            simp only [List.length_cons] at h32 hd31 ⊢
            omega
          rw [← hcc, ← hips,
            length_getAllIPsNode nd ((n :: q).length - 1) (n :: q) hwfnd,
            WFNode_count_eq_numLeaves _ nd hwfnd hdne]

/-- Witness for C5: the empty tree with the zero-length prefix, where the
    enumeration is empty and the count is 0. -/
theorem C5_witness_count_matches_length :
    (0 : Int) = (([] : List Addr).length : Int) :=
  C5_count_in_range_eq_length [] { ip := [], maskOnes := 0 } [] 0
    (by simp) (by decide) (by decide)
